import Mathlib

/-!
Verification of the morse-learn adaptive letter-introduction engine.

The definitions below are a shallow embedding of the JavaScript in
`src/scripts/game-space.js` (GameSpace), `src/scripts/practice-state.js`
(PracticeState), `src/unnamed/part_000` (calculateCourseProgressPercent) and
`src/api-service/server.js` (calculateProgressPercent).

Modelling conventions:
- `letterScoreDict` is an insertion-ordered association list `List (Char × Int)`
  (mirroring a JS object with integer values); `jsGet` returns `none` for a
  missing key (JS `undefined`).
- A JS arithmetic update on a missing key (`dict[c] += 1` with `c` absent)
  produces `NaN`.  Every subsequent read in the sources (`>=`, `<`, `>`
  comparisons and the truthiness test) treats `NaN` exactly like a missing
  key, so `jsAdjust` models this case by leaving the key absent.
- `config.app.LEARNED_THRESHOLD` and `config.app.CONSECUTIVE_CORRECT` come
  from `config.js`, which is not part of the sources; they are kept as
  parameters `T` and `CC` of the definitions.
- `_.shuffle` is external randomness: `findAWord` takes the post-shuffle
  corpus as an input, so theorems quantify over every shuffle outcome.
- Purely visual work (tweens, pill animations, `slideLetters` geometry,
  `updateWordBackgrounds`) has no bearing on the claims and is omitted;
  observable collaborator calls are recorded in an explicit `Effect` trace.
-/

namespace MorseLearn

/-- The in-memory letter score dictionary (`this.letterScoreDict`). -/
abbrev ScoreDict := List (Char × Int)

/-- JS property read `dict[c]`: `some v` when the key is present, `none`
for `undefined`. -/
def jsGet (d : ScoreDict) (c : Char) : Option Int :=
  (d.find? (fun p => p.1 = c)).map (fun p => p.2)

/-- JS property write `dict[c] = v` for a key already present: every entry
with key `c` is overwritten (entries of association lists built here have
unique keys, matching JS object keys). -/
def jsSet (d : ScoreDict) (c : Char) (v : Int) : ScoreDict :=
  d.map (fun p => if p.1 = c then (p.1, v) else p)

/-- JS `dict[c] += delta`.  When the key is missing JS stores `NaN`; no
later read in the sources distinguishes `NaN` from a missing key (all
comparisons on `NaN` are false and `NaN` is falsy), so the missing case
leaves the dictionary unchanged. -/
def jsAdjust (d : ScoreDict) (c : Char) (delta : Int) : ScoreDict :=
  match jsGet d c with
  | some v => jsSet d c (v + delta)
  | none => d

/-- JS `if (dict[c] > hi) dict[c] = hi;` (no-op on a missing key, as
`undefined > hi` is false). -/
def clampAbove (d : ScoreDict) (c : Char) (hi : Int) : ScoreDict :=
  match jsGet d c with
  | some v => if v > hi then jsSet d c hi else d
  | none => d

/-- JS `if (dict[c] < lo) dict[c] = lo;` (no-op on a missing key). -/
def clampBelow (d : ScoreDict) (c : Char) (lo : Int) : ScoreDict :=
  match jsGet d c with
  | some v => if v < lo then jsSet d c lo else d
  | none => d

/-- JS truthiness of `dict[c]`: false for a missing key and for `0`. -/
def jsTruthy (o : Option Int) : Bool :=
  match o with
  | some v => v != 0
  | none => false

/-- JS comparison `dict[c] < t` (false when the key is missing). -/
def jsLtB (o : Option Int) (t : Int) : Bool :=
  match o with
  | some v => v < t
  | none => false

/-- JS comparison `dict[c] >= t` (false when the key is missing). -/
def jsGeB (o : Option Int) (t : Int) : Bool :=
  match o with
  | some v => t ≤ v
  | none => false

/-! ### WordSelector: `GameSpace.findAWord` (game-space.js lines 76-150) -/

/-- Input of one `findAWord` call: the post-shuffle corpus (words as
character lists), the current letter pool (`this.currentLettersInPlay`),
the course's ordered symbol list (`course.lettersToLearn`) and the score
dictionary. -/
structure WordSearch where
  shuffled : List (List Char)
  pool : List Char
  courseLetters : List Char
  scores : ScoreDict

/-- Lines 104-111: if fewer than 3 letters are in play the pool is reset to
the first three course letters before scanning. -/
def effectivePool (inp : WordSearch) : List Char :=
  if inp.pool.length < 3 then inp.courseLetters.take 3 else inp.pool

/-- `GameSpace.findAWord`, lines 76-150.  `newestLetter` is read from the
pool before the under-3 reseed (lines 96-99).  The scan (lines 113-136)
returns the first pool-only word; when
`letterScoreDict[newestLetter] && letterScoreDict[newestLetter] < LEARNED_THRESHOLD`
(a truthy score strictly below `T`) it additionally requires the word to
contain the newest letter.  If the scan finds nothing the literal fallback
`'cat'` is returned (lines 139-142). -/
def findAWord (T : Int) (inp : WordSearch) : List Char :=
  let newestLetter := inp.pool.getLast?.getD 'a'
  let pool := effectivePool inp
  let biased := jsTruthy (jsGet inp.scores newestLetter)
    && jsLtB (jsGet inp.scores newestLetter) T
  let pick := inp.shuffled.find? (fun w =>
    w.all (fun l => pool.contains l) && (!biased || w.contains newestLetter))
  match pick with
  | some w => w
  | none => ['c', 'a', 't']

/-! ### CourseCompletionGate: `GameSpace.checkAllLettersLearned`
(game-space.js lines 510-541) -/

/-- `GameSpace.checkAllLettersLearned`, lines 510-517: compares the number
of dictionary keys whose score reaches `T` against the number of course
letters.  Note it counts dictionary keys, not course letters. -/
def checkAllLettersLearned (T : Int) (courseLetters : List Char)
    (scores : ScoreDict) : Bool :=
  let totalLetters := courseLetters.length
  let learnedLetters := (scores.filter (fun p => T ≤ p.2)).length
  learnedLetters == totalLetters

/-! ### LetterPoolManager: `GameSpace.checkAddLetters`
(game-space.js lines 411-457) -/

/-- lodash `_.uniq`: first occurrence of each value, in order. -/
def lodashUniq (l : List Char) : List Char :=
  l.foldl (fun acc x => if acc.contains x then acc else acc ++ [x]) []

/-- lodash `_.intersection(a, b)`: unique values of `a` that occur in `b`,
in the order of `a`. -/
def lodashIntersection (a b : List Char) : List Char :=
  (lodashUniq a).filter (fun x => b.contains x)

/-- The session fields read and written by `checkAddLetters`. -/
structure PoolState where
  pool : List Char
  courseLetters : List Char
  scores : ScoreDict
  streak : Nat

/-- Lines 417-434: the learned flag of the last element of
`_.intersection(currentLettersInPlay, lettersToLearn)` (`undefined`,
i.e. false, when the intersection is empty; a missing score also counts
as not learned). -/
def lastFlag (T : Int) (s : PoolState) : Bool :=
  ((lodashIntersection s.pool s.courseLetters).map
    (fun c => jsGeB (jsGet s.scores c) T)).getLast?.getD false

/-- `GameSpace.checkAddLetters`, lines 411-457 (the body of the 200 ms
timeout, which runs after the turn that scheduled it).  When the last
intersection letter is learned and the streak has reached `CC`, the pool is
replaced by the course prefix of length `min (pool.length + 1) course.length`
(the `while` loop at lines 445-449 is exactly the clamp) and the streak
resets; otherwise nothing changes. -/
def checkAddLetters (T : Int) (CC : Nat) (s : PoolState) : PoolState :=
  if lastFlag T s && decide (CC ≤ s.streak) then
    { s with
      pool := s.courseLetters.take (min (s.pool.length + 1) s.courseLetters.length)
      streak := 0 }
  else s

/-! ### TurnController: `GameSpace.checkMatch` (game-space.js lines 543-646)
and its collaborators -/

/-- One on-screen word (`Word`): its letters and the cursor within it
(`Word.currentLetterIndex`, initialised to 0 by the `Word` constructor). -/
structure GWord where
  myLetters : List Char
  currentLetterIndex : Nat
deriving DecidableEq, Repr

/-- The `GameSpace` session fields driving a turn. -/
structure GameState where
  scores : ScoreDict
  pool : List Char
  courseLetters : List Char
  words : List GWord
  wordIdx : Nat
  mistakes : Nat
  streak : Nat
  inputReady : Bool
  speech : Bool
deriving DecidableEq, Repr

/-- Observable collaborator calls made during a turn, in call order.
Purely visual tweens are omitted. -/
inductive Effect where
  | analyticsCorrect (c : Char)
  | analyticsWrong (c : Char)
  | saveProgress
  | updateLights
  | playCorrect
  | playWrong
  | playLetterSound (c : Char)
  | showHint
  | playMorse (c : Char)
  | playMnemonic (c : Char)
  | startCongratulations
deriving DecidableEq, Repr

/-- `GameSpace.playHints`, lines 657-668: the audio hints played for
`attempts` failed attempts, keyed on `attempts % 4`
(0 = morse replay then mnemonic, 1 = nothing, 2 = morse replay only,
3 = mnemonic only). -/
def playHints (c : Char) (attempts : Nat) : List Effect :=
  if attempts % 4 = 0 then [Effect.playMorse c, Effect.playMnemonic c]
  else if attempts % 4 = 1 then []
  else if attempts % 4 = 2 then [Effect.playMorse c]
  else [Effect.playMnemonic c]

/-- Replace the word at index `i` (in-place JS mutation of
`this.currentWords[i]`). -/
def modifyWord (ws : List GWord) (i : Nat) (f : GWord → GWord) : List GWord :=
  match ws.get? i with
  | some w => ws.set i (f w)
  | none => ws

/-- `GameSpace.makeWordObject`, lines 459-493, as called from `addAWord`:
pick a word via `findAWord` (which also reseeds an under-3 pool, lines
104-111) and append a fresh `Word` with cursor 0.  The `checkAddLetters`
call inside it runs in a 200 ms timeout after the turn and is modelled
separately by `checkAddLetters`. -/
def makeWordObject (T : Int) (shuffled : List (List Char)) (s : GameState) :
    GameState :=
  let w := findAWord T ⟨shuffled, s.pool, s.courseLetters, s.scores⟩
  { s with
    pool := effectivePool ⟨shuffled, s.pool, s.courseLetters, s.scores⟩
    words := s.words ++ [⟨w, 0⟩] }

/-- The score update of the correct path, lines 565-570: increment, then
clamp at `LEARNED_THRESHOLD + 2`. -/
def correctScores (T : Int) (d : ScoreDict) (c : Char) : ScoreDict :=
  clampAbove (jsAdjust d c 1) c (T + 2)

/-- The score update of the incorrect path, lines 620-631: decrement, then
clamp at `-LEARNED_THRESHOLD - 2`. -/
def wrongScores (T : Int) (d : ScoreDict) (c : Char) : ScoreDict :=
  clampBelow (jsAdjust d c (-1)) c (-(T + 2))

/-- Lines 576-586: after the cursor moved past the end of the current word,
advance `currentWordIndex`, reset the finished word's cursor to 0 and, when
fewer than two words remain ahead, append a new word (`addAWord`; its
positioning code is visual only).  The length test compares JS numbers, so
it is taken over `Int`. -/
def correctAdvance (T : Int) (shuffled : List (List Char)) (word : GWord)
    (s1 : GameState) : GameState :=
  if word.myLetters.length ≤ word.currentLetterIndex + 1 then
    let sA := { s1 with
      wordIdx := s1.wordIdx + 1
      words := modifyWord s1.words s1.wordIdx
        (fun w => { w with currentLetterIndex := 0 }) }
    if ((sA.words.length : Int) - 2 < (sA.wordIdx : Int)) then
      makeWordObject T shuffled sA
    else sA
  else s1

/-- Lines 588-611 of the correct path, applied to the state `s2` reached
after cursor advancement: read the new current word and letter, re-arm the
gate, update the progress lights, test the completion gate, then play the
new letter and (below threshold) its hints.  If one of the two lookups
fails, the JS throws inside the `try` (directly, or in `slideLetters`)
before any further collaborator call; the `finally` then re-arms the gate,
so the partially mutated state is kept and the trace stops. -/
def correctFinish (T : Int) (s2 : GameState) (e1 : List Effect) :
    GameState × List Effect :=
  match s2.words.get? s2.wordIdx with
  | none => ({ s2 with inputReady := true }, e1)
  | some word2 =>
    match word2.myLetters.get? word2.currentLetterIndex with
    | none => ({ s2 with inputReady := true }, e1)
    | some letter2 =>
      let s3 := { s2 with inputReady := true }
      let e2 := e1 ++ [Effect.updateLights]
      if checkAllLettersLearned T s3.courseLetters s3.scores then
        (s3, e2 ++ [Effect.saveProgress, Effect.startCongratulations])
      else
        let e3 := e2 ++ [Effect.playLetterSound letter2]
        if jsLtB (jsGet s3.scores letter2) T then
          (s3, e3 ++ [Effect.showHint] ++ playHints letter2 0)
        else (s3, e3)

/-- The correct path of `checkMatch`, lines 552-611.  `word` and `letter`
are the snapshots read at lines 549-550: analytics, streak and mistake
bookkeeping, cursor increment, increment-and-clamp of the score with the
`saveProgress` call in between, optional praise audio, word advancement,
then `correctFinish`. -/
def correctStep (T : Int) (shuffled : List (List Char)) (s : GameState)
    (word : GWord) (letter : Char) : GameState × List Effect :=
  let s1 : GameState := { s with
    mistakes := 0
    streak := s.streak + 1
    words := modifyWord s.words s.wordIdx
      (fun w => { w with currentLetterIndex := w.currentLetterIndex + 1 })
    scores := correctScores T s.scores letter }
  let e1 : List Effect := [Effect.analyticsCorrect letter, Effect.saveProgress]
    ++ (if s.speech then [Effect.playCorrect] else [])
  correctFinish T (correctAdvance T shuffled word s1) e1

/-- The incorrect path of `checkMatch`, lines 613-640: analytics, mistake
and streak bookkeeping, decrement-and-clamp, lights, then letter sound,
hint display and the escalated audio hints for the new mistake count.  The
cursor does not move and `saveProgress` is never called here. -/
def wrongStep (T : Int) (s : GameState) (letter : Char) :
    GameState × List Effect :=
  ({ s with
      mistakes := s.mistakes + 1
      streak := 0
      scores := wrongScores T s.scores letter
      inputReady := true },
    [Effect.analyticsWrong letter]
      ++ (if s.speech then [Effect.playWrong] else [])
      ++ [Effect.updateLights, Effect.playLetterSound letter, Effect.showHint]
      ++ playHints letter (s.mistakes + 1))

/-- `GameSpace.checkMatch`, lines 543-646.  A closed gate returns before the
`try` block: nothing at all happens.  A failed lookup of the current word
throws at line 550 before any mutation; a cursor beyond the current word's
letters makes `typedLetter === undefined` false and the wrong branch then
throws inside `incrementWrongCount` before any mutation — in both cases
the `finally` re-arms the gate and the state is unchanged. -/
def checkMatch (T : Int) (shuffled : List (List Char)) (s : GameState)
    (typed : Char) : GameState × List Effect :=
  if s.inputReady = false then (s, [])
  else
    match s.words.get? s.wordIdx with
    | none => (s, [])
    | some word =>
      match word.myLetters.get? word.currentLetterIndex with
      | none => (s, [])
      | some letter =>
        if typed = letter then correctStep T shuffled s word letter
        else wrongStep T s letter

/-- A sequence of submissions, each with the corpus shuffle the turn would
use if it appends a word. -/
def runMatches (T : Int) (s : GameState)
    (inputs : List (Char × List (List Char))) : GameState :=
  inputs.foldl (fun st inp => (checkMatch T inp.2 st inp.1).1) s

/-! ### Progress percentages: `calculateCourseProgressPercent`
(src/unnamed/part_000 lines 43-56) and `calculateProgressPercent`
(src/api-service/server.js lines 604-617).

Scores are JS numbers; on the integer values stored by the game,
`Math.floor` of the exact quotient is integer division, and
`Number(v) || 0` is the identity. -/

/-- Client-side `calculateCourseProgressPercent(progress, learnedThreshold = 2)`.
Empty maps and a zero `maxScore` short-circuit to 0; otherwise
`min(100, floor(max(0, totalScore) * 100 / maxScore))`. -/
def calculateCourseProgressPercent (progress : List (Char × Int))
    (learnedThreshold : Int) : Int :=
  let letters := progress.map Prod.fst
  if letters.length = 0 then 0
  else
    let totalScore := progress.foldl (fun acc p => acc + p.2) 0
    let maxScore : Int := letters.length * learnedThreshold
    if maxScore = 0 then 0
    else min 100 ((max 0 totalScore * 100) / maxScore)

/-- Server-side `calculateProgressPercent(progress)` with the hardcoded
`howManyCorrectAnswersToLearn = 2`. -/
def calculateProgressPercent (progress : List (Char × Int)) : Int :=
  let howManyCorrectAnswersToLearn : Int := 2
  let noOfLettersInTheAlphabet := (progress.map Prod.fst).length
  if noOfLettersInTheAlphabet = 0 then 0
  else
    let totalLetterAnswersCorrect := progress.foldl (fun acc p => acc + p.2) 0
    let hundredPercent : Int := noOfLettersInTheAlphabet * howManyCorrectAnswersToLearn
    min 100 ((max 0 totalLetterAnswersCorrect * 100) / hundredPercent)

/-! ### PracticeState (practice-state.js lines 26, 184-233) -/

/-- `normalizePhrase` (line 26): lowercase, keep only `[a-z0-9]`. -/
def normalizePhrase (phrase : List Char) : List Char :=
  (phrase.map Char.toLower).filter
    (fun c => decide (('a' ≤ c ∧ c ≤ 'z') ∨ ('0' ≤ c ∧ c ≤ '9')))

/-- The `PracticeState` fields driving `handleInput`. -/
structure PracticeState where
  sessionPhrases : List (List Char)
  currentPhraseIndex : Nat
  currentCharIndex : Nat
  totalErrors : Nat
  sessionComplete : Bool
deriving DecidableEq, Repr

/-- `PracticeState.getCurrentTarget` (lines 178-180): the normalized current
phrase (empty when the phrase index is out of range). -/
def getCurrentTarget (s : PracticeState) : List Char :=
  normalizePhrase ((s.sessionPhrases.get? s.currentPhraseIndex).getD [])

/-- `PracticeState.advancePhrase` (lines 224-233, state part): next phrase,
cursor to 0; past the last phrase `finishSession` marks the session
complete. -/
def advancePhrase (s : PracticeState) : PracticeState :=
  let s1 := { s with
    currentPhraseIndex := s.currentPhraseIndex + 1
    currentCharIndex := 0 }
  if s1.sessionPhrases.length ≤ s1.currentPhraseIndex then
    { s1 with sessionComplete := true }
  else s1

/-- `PracticeState.handleInput` (lines 184-209): drop input when the session
is complete, the target is empty or the cursor is past the target; otherwise
count an error on a mismatch, always advance the cursor, and advance the
phrase once the cursor reaches the end of the target. -/
def handleInput (s : PracticeState) (letter : Char) : PracticeState :=
  if s.sessionComplete then s
  else
    let target := getCurrentTarget s
    if target.isEmpty then s
    else if target.length ≤ s.currentCharIndex then s
    else
      let expected := (target.get? s.currentCharIndex).getD ' '
      let s1 := if letter = expected then s
        else { s with totalErrors := s.totalErrors + 1 }
      let s2 := { s1 with currentCharIndex := s1.currentCharIndex + 1 }
      if target.length ≤ s2.currentCharIndex then advancePhrase s2 else s2

/-- A sequence of practice submissions. -/
def runInputs (s : PracticeState) (letters : List Char) : PracticeState :=
  letters.foldl handleInput s

/-! ## Theorems for the claims -/

/-! ### C1: the newest-letter bias of `findAWord` -/

/-- The claim's own instance: pool `{a, b, c}`, corpus `["ab", "cab"]`
(shuffle left as the identity permutation), every mastery score 0. -/
def zeroScoreSearch : WordSearch :=
  ⟨[['a', 'b'], ['c', 'a', 'b']], ['a', 'b', 'c'], ['a', 'b', 'c'],
    [('a', 0), ('b', 0), ('c', 0)]⟩

/-- Same state except the newest letter `c` has score 1 (truthy and below
the threshold). -/
def oneScoreSearch : WordSearch :=
  ⟨[['a', 'b'], ['c', 'a', 'b']], ['a', 'b', 'c'], ['a', 'b', 'c'],
    [('a', 0), ('b', 0), ('c', 1)]⟩

/-- C1: on the claim's instance the newest letter `c` has score 0, which is
below the threshold 2, and the pool-eligible word `"cab"` contains it — yet
`findAWord` returns `"ab"`: the guard
`letterScoreDict[newestLetter] && letterScoreDict[newestLetter] < LEARNED_THRESHOLD`
treats the falsy score 0 like a missing entry and skips the bias, contrary
to the comment above it (`// Check to see if newest letter hasn't been
learned, then only use`).  With the score 1 instead — equally below the
threshold but truthy — the bias applies and `"cab"` is returned. -/
theorem findAWord_zero_score_skips_newest_bias :
    findAWord 2 zeroScoreSearch = ['a', 'b'] ∧
    'c' ∉ findAWord 2 zeroScoreSearch ∧
    jsGet zeroScoreSearch.scores 'c' = some 0 ∧
    (∀ l ∈ ['c', 'a', 'b'], l ∈ zeroScoreSearch.pool) ∧
    ['c', 'a', 'b'] ∈ zeroScoreSearch.shuffled ∧
    findAWord 2 oneScoreSearch = ['c', 'a', 'b'] := by
  decide

/-! ### C2: every returned word lies in the pool — except the fallback -/

/-- A pool of size 3 (so it is not reseeded) with a corpus whose only word
fails the pool filter. -/
def fallbackSearch : WordSearch :=
  ⟨[['x', 'y']], ['a', 'b', 'c'], ['a', 'b', 'c'], []⟩

/-- C2 counterexample: when no corpus word passes the pool filter,
`findAWord` returns the literal default `"cat"`, and `'t'` is not in the
pool (nor in the reseeded pool), refuting "the word returned … contains
only symbols that are members of the active pool — including the …
fallback" . -/
theorem findAWord_fallback_outside_pool :
    findAWord 2 fallbackSearch = ['c', 'a', 't'] ∧
    't' ∈ findAWord 2 fallbackSearch ∧
    't' ∉ fallbackSearch.pool ∧
    't' ∉ effectivePool fallbackSearch := by
  decide

/-- C2 as amended: every word `findAWord` returns either passes the pool
filter (against the pool after the under-3 reseed) or is the fixed default
word `"cat"`, which need not pass it. -/
theorem findAWord_pool_or_default (T : Int) (inp : WordSearch) :
    (∀ l ∈ findAWord T inp, l ∈ effectivePool inp) ∨
    findAWord T inp = ['c', 'a', 't'] := by
  unfold findAWord
  rcases hf : inp.shuffled.find? (fun w =>
      w.all (fun l => (effectivePool inp).contains l) &&
        (!(jsTruthy (jsGet inp.scores (inp.pool.getLast?.getD 'a')) &&
            jsLtB (jsGet inp.scores (inp.pool.getLast?.getD 'a')) T) ||
          w.contains (inp.pool.getLast?.getD 'a'))) with _ | w
  · right
    simp only [hf]
  · left
    intro l hl
    have hp := List.find?_some hf
    simp only [Bool.and_eq_true, List.all_eq_true] at hp
    have := hp.1 l ?_
    · simpa [List.contains, List.elem_iff] using this
    · simpa only [hf] using hl

/-! ### C7: hint escalation is `mistakeCount mod 4` -/

/-- C7: the audio hints of `playHints` are a pure function of
`attempts % 4`, cycling through full hint (morse replay then mnemonic),
no hint, morse replay only, mnemonic only; in particular attempts 0 and 4k
give the full hint, and attempts 1 and 5 give nothing. -/
theorem playHints_mod_four (c : Char) (m : Nat) :
    playHints c m = playHints c (m % 4) ∧
    playHints c 0 = [Effect.playMorse c, Effect.playMnemonic c] ∧
    playHints c 1 = [] ∧
    playHints c 2 = [Effect.playMorse c] ∧
    playHints c 3 = [Effect.playMnemonic c] ∧
    playHints c 5 = [] := by
  refine ⟨?_, rfl, rfl, rfl, rfl, rfl⟩
  have h : m % 4 % 4 = m % 4 := by omega
  simp only [playHints, h]

/-! ### C8: a submission with the gate closed is a no-op -/

/-- C8: when `inputReady` is false, `checkMatch` returns before the `try`
block, so the whole session state — scores, cursor, mistake count, streak —
is unchanged and no collaborator call (in particular no analytics count)
happens. -/
theorem closed_gate_no_op (T : Int) (shuffled : List (List Char))
    (s : GameState) (typed : Char) (h : s.inputReady = false) :
    checkMatch T shuffled s typed = (s, []) := by
  simp [checkMatch, h]

/-- A concrete session state with the gate closed. -/
def closedGateState : GameState :=
  ⟨[('a', 1)], ['a', 'b', 'c'], ['a', 'b', 'c'], [⟨['a'], 0⟩], 0, 2, 1,
    false, true⟩

/-- Witness for C8 at a concrete closed-gate state. -/
theorem closed_gate_no_op_witness :
    checkMatch 2 [] closedGateState 'a' = (closedGateState, []) :=
  closed_gate_no_op 2 [] closedGateState 'a' rfl

/-! ### C3: pool growth -/

/-- A reachable session state whose pool is not a prefix of the course
order: `loadLetters` (lines 353-409) seeds the pool from every saved letter
with score `≥ T`, so saved progress `{d: 2, e: 2, f: 2}` yields the pool
`['d', 'e', 'f']`. -/
def nonPrefixPool : PoolState :=
  ⟨['d', 'e', 'f'], ['a', 'b', 'c', 'd', 'e', 'f'],
    [('d', 2), ('e', 2), ('f', 2)], 3⟩

/-- C3 counterexample: with `T = 2`, `CC = 3`, both growth conditions hold
(the last intersection letter `f` is learned and the streak is 3), but the
new pool `['a', 'b', 'c', 'd']` is the course prefix of length 4, not an
extension of the old pool `['d', 'e', 'f']` by one symbol: `'e'` is
dropped. -/
theorem checkAddLetters_not_extension :
    lastFlag 2 nonPrefixPool = true ∧
    3 ≤ nonPrefixPool.streak ∧
    (checkAddLetters 2 3 nonPrefixPool).pool = ['a', 'b', 'c', 'd'] ∧
    'e' ∈ nonPrefixPool.pool ∧
    'e' ∉ (checkAddLetters 2 3 nonPrefixPool).pool := by
  decide

/-- C3 as amended: when the last letter of the intersection of pool and
course order is learned and the streak has reached `CC`, `checkAddLetters`
replaces the pool by the course prefix of length
`min (pool.length + 1) course.length` and resets the streak to 0 — for a
pool that is itself a course prefix this extends it by exactly the next
course symbol, and the new pool never exceeds the course length; when
either condition fails, the state is unchanged. -/
theorem checkAddLetters_growth_spec (T : Int) (CC : Nat) (s : PoolState) :
    ((lastFlag T s = true ∧ CC ≤ s.streak) →
      (checkAddLetters T CC s).pool =
        s.courseLetters.take (min (s.pool.length + 1) s.courseLetters.length) ∧
      (checkAddLetters T CC s).streak = 0 ∧
      (checkAddLetters T CC s).pool.length ≤ s.courseLetters.length ∧
      (∀ n c, s.pool = s.courseLetters.take n →
        s.courseLetters.get? n = some c →
        (checkAddLetters T CC s).pool = s.pool ++ [c])) ∧
    (¬(lastFlag T s = true ∧ CC ≤ s.streak) → checkAddLetters T CC s = s) := by
  constructor
  · rintro ⟨h1, h2⟩
    have hcond : (lastFlag T s && decide (CC ≤ s.streak)) = true := by
      simp [h1, h2]
    refine ⟨by simp [checkAddLetters, hcond], by simp [checkAddLetters, hcond],
      ?_, ?_⟩
    · simp only [checkAddLetters, hcond, if_true]
      rw [List.length_take]
      omega
    · intro n c hpool hget
      have hn : n < s.courseLetters.length := by
        rcases List.get?_eq_some.mp hget with ⟨h, _⟩
        exact h
      have hlen : s.pool.length = n := by
        rw [hpool, List.length_take]
        omega
      simp only [checkAddLetters, hcond, if_true]
      have hmin : min (s.pool.length + 1) s.courseLetters.length = n + 1 := by
        omega
      rw [hmin, List.take_succ, hpool]
      have hget2 : s.courseLetters[n]? = some c := by
        rw [← List.get?_eq_getElem?]
        exact hget
      rw [hget2]
      rfl
  · intro h
    have hcond : (lastFlag T s && decide (CC ≤ s.streak)) = false := by
      by_cases hL : lastFlag T s = true
      · simp only [hL, Bool.true_and]
        rw [decide_eq_false_iff_not]
        exact fun hcc => h ⟨hL, hcc⟩
      · have hL2 : lastFlag T s = false := by
          revert hL
          cases lastFlag T s <;> simp
        simp [hL2]
    simp [checkAddLetters, hcond]

/-- A session state whose pool is the course prefix of length 3 with the
growth conditions met. -/
def prefixPool : PoolState :=
  ⟨['a', 'b', 'c'], ['a', 'b', 'c', 'd', 'e', 'f'],
    [('a', 2), ('b', 2), ('c', 2)], 3⟩

/-- Witness for C3 as amended: on a course-prefix pool the growth step
appends exactly the next course symbol and resets the streak. -/
theorem checkAddLetters_growth_spec_witness :
    (checkAddLetters 2 3 prefixPool).pool = prefixPool.pool ++ ['d'] ∧
    (checkAddLetters 2 3 prefixPool).streak = 0 :=
  ⟨((checkAddLetters_growth_spec 2 3 prefixPool).1 (by decide)).2.2.2 3 'd'
      (by decide) (by decide),
    ((checkAddLetters_growth_spec 2 3 prefixPool).1 (by decide)).2.1⟩

/-! ### C4: the completion gate -/

/-- C4 counterexample: a score map whose keys are disjoint from the course.
Both its entries reach the threshold, so the learned-key count (2) equals
the course length (2) and the gate reports completion, although the course
symbol `'a'` has no score at all — the gate counts learned keys instead of
checking course symbols. -/
theorem checkAllLettersLearned_key_mismatch :
    checkAllLettersLearned 2 ['a', 'b'] [('x', 5), ('y', 5)] = true ∧
    jsGet [('x', 5), ('y', 5)] 'a' = none := by
  decide

/-- Every entry of an association list with distinct keys is what `jsGet`
finds for its key. -/
theorem jsGet_of_mem_nodup {scores : ScoreDict} {p : Char × Int}
    (hnd : (scores.map Prod.fst).Nodup) (hp : p ∈ scores) :
    jsGet scores p.1 = some p.2 := by
  induction scores with
  | nil => cases hp
  | cons q rest ih =>
    rw [List.map_cons, List.nodup_cons] at hnd
    rcases List.mem_cons.mp hp with rfl | hp
    · simp [jsGet, List.find?]
    · have hne : q.1 ≠ p.1 := by
        intro he
        exact hnd.1 (he ▸ List.mem_map_of_mem Prod.fst hp)
      simp only [jsGet, List.find?]
      rw [decide_eq_false hne]
      exact ih hnd.2 hp

/-- C4 as amended: `checkAllLettersLearned` returns true iff the number of
stored scores reaching the threshold equals the number of course letters;
when the score map's key list is exactly the course's (distinct) letters,
that is equivalent to every course letter having a stored score `≥ T`. -/
theorem checkAllLettersLearned_iff_when_keys_match (T : Int)
    (letters : List Char) (scores : ScoreDict)
    (hk : scores.map Prod.fst = letters) (hnd : letters.Nodup) :
    checkAllLettersLearned T letters scores = true ↔
      ∀ c ∈ letters, ∃ v, jsGet scores c = some v ∧ T ≤ v := by
  subst hk
  have hlen : (scores.map Prod.fst).length = scores.length := List.length_map _ _
  constructor
  · intro h c hc
    simp only [checkAllLettersLearned, beq_iff_eq, hlen] at h
    have hall := List.filter_length_eq_length.mp h
    rcases List.mem_map.mp hc with ⟨p, hp, hpc⟩
    refine ⟨p.2, ?_, ?_⟩
    · rw [← hpc]
      exact jsGet_of_mem_nodup hnd hp
    · simpa using hall p hp
  · intro h
    simp only [checkAllLettersLearned, beq_iff_eq, hlen]
    apply List.filter_length_eq_length.mpr
    intro p hp
    rcases h p.1 (List.mem_map_of_mem Prod.fst hp) with ⟨v, hv, hTv⟩
    rw [jsGet_of_mem_nodup hnd hp] at hv
    simp only [Option.some.injEq] at hv
    simpa [hv] using hTv

/-- Witness for C4 as amended: a map whose keys are exactly the course
letters, all learned, makes the gate return true. -/
theorem checkAllLettersLearned_iff_witness :
    checkAllLettersLearned 2 ['a', 'b'] [('a', 2), ('b', 3)] = true :=
  (checkAllLettersLearned_iff_when_keys_match 2 ['a', 'b']
    [('a', 2), ('b', 3)] rfl (by decide)).mpr (by decide)

/-! ### C5: persistence after score mutations -/

/-- `playHints` only ever plays audio; it never saves. -/
theorem saveProgress_not_in_playHints (c : Char) (n : Nat) :
    Effect.saveProgress ∉ playHints c n := by
  unfold playHints
  split
  · simp
  · split
    · simp
    · split <;> simp

/-- The trace of `correctFinish` only extends the incoming trace. -/
theorem mem_correctFinish_of_mem (T : Int) (s2 : GameState)
    (e1 : List Effect) (e : Effect) (h : e ∈ e1) :
    e ∈ (correctFinish T s2 e1).2 := by
  unfold correctFinish
  repeat' split
  all_goals dsimp only
  all_goals (first | (split_ifs <;> simp [h]) | simp [h])

/-- Every trace of the correct path contains the `saveProgress` call made
right after the increment (line 566). -/
theorem saveProgress_in_correctStep (T : Int) (shuffled : List (List Char))
    (s : GameState) (word : GWord) (letter : Char) :
    Effect.saveProgress ∈ (correctStep T shuffled s word letter).2 := by
  unfold correctStep
  exact mem_correctFinish_of_mem _ _ _ _ (by simp)

/-- No trace of the incorrect path contains a `saveProgress` call. -/
theorem saveProgress_not_in_wrongStep (T : Int) (s : GameState)
    (letter : Char) :
    Effect.saveProgress ∉ (wrongStep T s letter).2 := by
  unfold wrongStep
  split <;> simp [saveProgress_not_in_playHints]

/-- An open-gate session state at the start of the word `"ab"`. -/
def saveProbeState : GameState :=
  ⟨[('a', 0), ('b', 0), ('c', 0)], ['a', 'b', 'c'], ['a', 'b', 'c'],
    [⟨['a', 'b'], 0⟩, ⟨['b', 'a'], 0⟩], 0, 0, 0, true, false⟩

/-- C5 counterexample: an incorrect submission decrements the expected
letter's score (a mastery mutation) yet its trace contains no
`saveProgress` call — lines 613-640 never invoke `parent.saveProgress`. -/
theorem saveProgress_missing_on_wrong_path :
    Effect.saveProgress ∉ (checkMatch 2 [] saveProbeState 'x').2 ∧
    (checkMatch 2 [] saveProbeState 'x').1.scores ≠ saveProbeState.scores := by
  decide

/-- C5 as amended: in every turn that reaches the comparison (open gate,
cursor on a letter), a correct submission's trace contains `saveProgress`
(invoked right after the increment, line 566), while an incorrect
submission mutates the score without any `saveProgress` in its trace. -/
theorem saveProgress_exactly_on_correct_path (T : Int)
    (shuffled : List (List Char)) (s : GameState) (typed : Char)
    (w : GWord) (c : Char) (hr : s.inputReady = true)
    (hw : s.words.get? s.wordIdx = some w)
    (hc : w.myLetters.get? w.currentLetterIndex = some c) :
    (typed = c → Effect.saveProgress ∈ (checkMatch T shuffled s typed).2) ∧
    (typed ≠ c → Effect.saveProgress ∉ (checkMatch T shuffled s typed).2) := by
  constructor
  · intro he
    subst he
    simp only [checkMatch, hr, hw, hc, if_pos rfl, Bool.false_eq_true,
      if_false]
    exact saveProgress_in_correctStep T shuffled s w typed
  · intro hne
    simp only [checkMatch, hr, hw, hc, Bool.false_eq_true, if_false]
    rw [if_neg hne]
    exact saveProgress_not_in_wrongStep T s c

/-- Witness for C5 as amended at a concrete state: the correct submission
`'a'` saves, the incorrect submission `'x'` does not. -/
theorem saveProgress_exactly_on_correct_path_witness :
    Effect.saveProgress ∈ (checkMatch 2 [] saveProbeState 'a').2 ∧
    Effect.saveProgress ∉ (checkMatch 2 [] saveProbeState 'x').2 :=
  ⟨(saveProgress_exactly_on_correct_path 2 [] saveProbeState 'a'
      ⟨['a', 'b'], 0⟩ 'a' rfl rfl rfl).1 rfl,
    (saveProgress_exactly_on_correct_path 2 [] saveProbeState 'x'
      ⟨['a', 'b'], 0⟩ 'a' rfl rfl rfl).2 (by decide)⟩

/-! ### C6: score clamping invariant -/

/-- "Every stored score is within `[-(T+2), T+2]`". -/
def inRange (T : Int) (d : ScoreDict) : Prop :=
  ∀ p ∈ d, -(T + 2) ≤ p.2 ∧ p.2 ≤ T + 2

/-- Entries of `jsSet d c v` come from `d` or carry the value `v`. -/
theorem mem_jsSet {d : ScoreDict} {c : Char} {v : Int} {p : Char × Int}
    (h : p ∈ jsSet d c v) : p ∈ d ∨ p = (c, v) := by
  rcases List.mem_map.mp h with ⟨q, hq, hqp⟩
  by_cases hk : q.1 = c
  · right
    rw [← hqp]
    simp [hk]
  · left
    rw [← hqp]
    simpa [hk] using hq

/-- A successful `jsGet` exhibits a member of the dictionary. -/
theorem jsGet_mem {d : ScoreDict} {c : Char} {v : Int}
    (h : jsGet d c = some v) : (c, v) ∈ d := by
  unfold jsGet at h
  rcases hf : d.find? (fun p => p.1 = c) with _ | q
  · rw [hf] at h
    cases h
  · rw [hf] at h
    have hq := List.find?_some hf
    have hm := List.mem_of_find?_eq_some hf
    simp only [decide_eq_true_eq] at hq
    have h2 : q.2 = v := by simpa using h
    have : q = (c, v) := by
      cases q
      simp_all
    exact this ▸ hm

/-- Reading back the key just written. -/
theorem jsGet_jsSet (d : ScoreDict) (c : Char) (w : Int) :
    jsGet (jsSet d c w) c = (jsGet d c).map (fun _ => w) := by
  induction d with
  | nil => rfl
  | cons q rest ih =>
    simp only [jsSet, List.map_cons]
    by_cases hk : q.1 = c
    · simp [jsGet, List.find?, hk]
    · rw [if_neg hk]
      simp only [jsGet, List.find?, decide_eq_false hk]
      simpa [jsGet, jsSet] using ih

/-- Overwriting the same key twice keeps only the second write. -/
theorem jsSet_jsSet (d : ScoreDict) (c : Char) (a b : Int) :
    jsSet (jsSet d c a) c b = jsSet d c b := by
  unfold jsSet
  rw [List.map_map]
  apply List.map_congr_left
  intro p _
  by_cases hk : p.1 = c <;> simp [hk]

/-- The increment-and-clamp of the correct path keeps every score in
range. -/
theorem inRange_correctScores {T : Int} {d : ScoreDict} (c : Char)
    (hT : 0 ≤ T) (h : inRange T d) : inRange T (correctScores T d c) := by
  unfold correctScores
  rcases hg : jsGet d c with _ | v
  · simp only [jsAdjust, hg]
    simpa [clampAbove, hg] using h
  · have hvr : -(T + 2) ≤ v ∧ v ≤ T + 2 := h _ (jsGet_mem hg)
    simp only [jsAdjust, hg]
    have hset : jsGet (jsSet d c (v + 1)) c = some (v + 1) := by
      rw [jsGet_jsSet, hg]
      rfl
    simp only [clampAbove, hset]
    split_ifs with hgt
    · rw [jsSet_jsSet]
      intro p hp
      rcases mem_jsSet hp with hp | rfl
      · exact h _ hp
      · refine ⟨?_, ?_⟩ <;> (dsimp only; omega)
    · intro p hp
      rcases mem_jsSet hp with hp | rfl
      · exact h _ hp
      · refine ⟨?_, ?_⟩ <;> (dsimp only; omega)

/-- The decrement-and-clamp of the incorrect path keeps every score in
range. -/
theorem inRange_wrongScores {T : Int} {d : ScoreDict} (c : Char)
    (hT : 0 ≤ T) (h : inRange T d) : inRange T (wrongScores T d c) := by
  unfold wrongScores
  rcases hg : jsGet d c with _ | v
  · simp only [jsAdjust, hg]
    simpa [clampBelow, hg] using h
  · have hvr : -(T + 2) ≤ v ∧ v ≤ T + 2 := h _ (jsGet_mem hg)
    simp only [jsAdjust, hg]
    have hset : jsGet (jsSet d c (v + -1)) c = some (v + -1) := by
      rw [jsGet_jsSet, hg]
      rfl
    simp only [clampBelow, hset]
    split_ifs with hlt
    · rw [jsSet_jsSet]
      intro p hp
      rcases mem_jsSet hp with hp | rfl
      · exact h _ hp
      · refine ⟨?_, ?_⟩ <;> (dsimp only; omega)
    · intro p hp
      rcases mem_jsSet hp with hp | rfl
      · exact h _ hp
      · refine ⟨?_, ?_⟩ <;> (dsimp only; omega)

/-- Appending a word never touches the score dictionary. -/
theorem makeWordObject_scores (T : Int) (shuffled : List (List Char))
    (s : GameState) : (makeWordObject T shuffled s).scores = s.scores := rfl

/-- Word advancement never touches the score dictionary. -/
theorem correctAdvance_scores (T : Int) (shuffled : List (List Char))
    (word : GWord) (s1 : GameState) :
    (correctAdvance T shuffled word s1).scores = s1.scores := by
  unfold correctAdvance
  repeat' split
  all_goals dsimp only
  all_goals (first | rfl | (split_ifs <;> rfl))

/-- The tail of the correct path never touches the score dictionary. -/
theorem correctFinish_scores (T : Int) (s2 : GameState) (e1 : List Effect) :
    (correctFinish T s2 e1).1.scores = s2.scores := by
  unfold correctFinish
  repeat' split
  all_goals dsimp only
  all_goals (first | rfl | (split_ifs <;> rfl))

/-- The correct path's final scores are exactly increment-and-clamp. -/
theorem correctStep_scores (T : Int) (shuffled : List (List Char))
    (s : GameState) (word : GWord) (letter : Char) :
    (correctStep T shuffled s word letter).1.scores =
      correctScores T s.scores letter := by
  unfold correctStep
  rw [correctFinish_scores, correctAdvance_scores]

/-- One `checkMatch` turn keeps every score in range. -/
theorem checkMatch_inRange {T : Int} (shuffled : List (List Char))
    (s : GameState) (typed : Char) (hT : 0 ≤ T)
    (h : inRange T s.scores) :
    inRange T (checkMatch T shuffled s typed).1.scores := by
  unfold checkMatch
  split
  · exact h
  · split
    · exact h
    · split
      · exact h
      · split
        · rw [correctStep_scores]
          exact inRange_correctScores _ hT h
        · exact inRange_wrongScores _ hT h

/-- C6: starting from any session whose stored scores all lie within
`[-(T+2), T+2]`, after every prefix of any sequence of turn evaluations —
correct and incorrect submissions alike, with any shuffles for appended
words — every stored score still lies within `[-(T+2), T+2]`. -/
theorem scores_stay_in_range (T : Int) (hT : 0 ≤ T) (s : GameState)
    (hs : inRange T s.scores)
    (inputs : List (Char × List (List Char))) :
    inRange T (runMatches T s inputs).scores := by
  induction inputs generalizing s with
  | nil => exact hs
  | cons i rest ih =>
    exact ih _ (checkMatch_inRange i.2 s i.1 hT hs)

/-- An open-gate state with all scores at the clamp boundaries. -/
def rangeProbeState : GameState :=
  ⟨[('a', 4), ('b', -4), ('c', 0)], ['a', 'b', 'c'], ['a', 'b', 'c'],
    [⟨['a', 'b'], 0⟩, ⟨['b', 'a'], 0⟩], 0, 0, 0, true, false⟩

/-- Witness for C6: a correct answer at the upper clamp followed by a wrong
answer keeps all scores within `[-4, 4]` for `T = 2`. -/
theorem scores_stay_in_range_witness :
    inRange 2 (runMatches 2 rangeProbeState [('a', []), ('x', [])]).scores :=
  scores_stay_in_range 2 (by norm_num) rangeProbeState
    (by unfold inRange; decide) [('a', []), ('x', [])]

/-! ### C9: client and server progress percentages agree -/

/-- C9: for every progress map, the client-side
`calculateCourseProgressPercent` at its default threshold 2 and the
server-side `calculateProgressPercent` agree, and both equal 0 on the empty
map and `min 100 (⌊max 0 (Σ scores) * 100 / (letters * 2)⌋)` otherwise. -/
theorem progress_percent_equivalence (progress : List (Char × Int)) :
    calculateCourseProgressPercent progress 2 =
      calculateProgressPercent progress ∧
    calculateProgressPercent progress =
      (if progress.length = 0 then 0
       else min 100 ((max 0 (progress.foldl (fun acc p => acc + p.2) 0) * 100)
         / ((progress.length : Int) * 2))) := by
  unfold calculateCourseProgressPercent calculateProgressPercent
  by_cases h : progress.length = 0
  · simp [h]
  · have hmap : (progress.map Prod.fst).length = progress.length :=
      List.length_map _ _
    have hnz : ((progress.map Prod.fst).length : Int) * 2 ≠ 0 := by
      rw [hmap]
      omega
    simp only [hmap, h, if_false, hnz]
    constructor
    · rw [if_neg (show ¬((progress.length : Int) * 2 = 0) by omega)]
    · trivial

/-! ### C10: practice input advances one character per accepted input -/

/-- An accepted input that does not finish the phrase: the cursor moves one
step forward and everything else about the position is unchanged. -/
theorem handleInput_mid (s : PracticeState) (a : Char)
    (hsc : s.sessionComplete = false)
    (hmid : s.currentCharIndex + 1 < (getCurrentTarget s).length) :
    (handleInput s a).sessionPhrases = s.sessionPhrases ∧
    (handleInput s a).currentPhraseIndex = s.currentPhraseIndex ∧
    (handleInput s a).currentCharIndex = s.currentCharIndex + 1 ∧
    (handleInput s a).sessionComplete = false := by
  unfold handleInput
  rw [if_neg (by simp [hsc])]
  try dsimp only
  rw [if_neg (by
    rw [List.isEmpty_iff]
    intro he
    rw [he] at hmid
    simp at hmid)]
  rw [if_neg (show ¬((getCurrentTarget s).length ≤ s.currentCharIndex) by
    omega)]
  by_cases ha : a = ((getCurrentTarget s).get? s.currentCharIndex).getD ' '
  · rw [if_pos ha]
    try dsimp only
    rw [if_neg (show ¬((getCurrentTarget s).length ≤ s.currentCharIndex + 1)
      by omega)]
    exact ⟨rfl, rfl, rfl, hsc⟩
  · rw [if_neg ha]
    try dsimp only
    rw [if_neg (show ¬((getCurrentTarget s).length ≤ s.currentCharIndex + 1)
      by omega)]
    exact ⟨rfl, rfl, rfl, hsc⟩

/-- An accepted input that finishes the phrase: the phrase index advances
by one and the cursor resets to 0. -/
theorem handleInput_last (s : PracticeState) (a : Char)
    (hsc : s.sessionComplete = false)
    (hlast : s.currentCharIndex + 1 = (getCurrentTarget s).length) :
    (handleInput s a).currentPhraseIndex = s.currentPhraseIndex + 1 ∧
    (handleInput s a).currentCharIndex = 0 := by
  unfold handleInput
  rw [if_neg (by simp [hsc])]
  try dsimp only
  rw [if_neg (by
    rw [List.isEmpty_iff]
    intro he
    rw [he] at hlast
    simp at hlast)]
  rw [if_neg (show ¬((getCurrentTarget s).length ≤ s.currentCharIndex) by
    omega)]
  by_cases ha : a = ((getCurrentTarget s).get? s.currentCharIndex).getD ' '
  · rw [if_pos ha]
    try dsimp only
    rw [if_pos (show (getCurrentTarget s).length ≤ s.currentCharIndex + 1 by
      omega)]
    unfold advancePhrase
    try dsimp only
    split_ifs <;> exact ⟨rfl, rfl⟩
  · rw [if_neg ha]
    try dsimp only
    rw [if_pos (show (getCurrentTarget s).length ≤ s.currentCharIndex + 1 by
      omega)]
    unfold advancePhrase
    try dsimp only
    split_ifs <;> exact ⟨rfl, rfl⟩

/-- An accepted input bumps `totalErrors` exactly when it mismatches the
expected character. -/
theorem handleInput_errors (s : PracticeState) (a : Char)
    (hsc : s.sessionComplete = false)
    (hidx : s.currentCharIndex < (getCurrentTarget s).length) :
    (handleInput s a).totalErrors =
      (if a = (getCurrentTarget s).get ⟨s.currentCharIndex, hidx⟩
       then s.totalErrors else s.totalErrors + 1) := by
  have hexp : ((getCurrentTarget s).get? s.currentCharIndex).getD ' ' =
      (getCurrentTarget s).get ⟨s.currentCharIndex, hidx⟩ := by
    rw [List.get?_eq_get hidx]
    rfl
  unfold handleInput
  rw [if_neg (by simp [hsc])]
  try dsimp only
  rw [if_neg (by
    rw [List.isEmpty_iff]
    intro he
    rw [he] at hidx
    simp at hidx)]
  rw [if_neg (show ¬((getCurrentTarget s).length ≤ s.currentCharIndex) by
    omega)]
  rw [hexp]
  by_cases ha : a = (getCurrentTarget s).get ⟨s.currentCharIndex, hidx⟩
  · rw [if_pos ha, if_pos ha]
    try dsimp only
    split_ifs with hc
    · unfold advancePhrase
      try dsimp only
      split_ifs <;> rfl
    · rfl
  · rw [if_neg ha, if_neg ha]
    try dsimp only
    split_ifs with hc
    · unfold advancePhrase
      try dsimp only
      split_ifs <;> rfl
    · rfl

/-- Feeding exactly as many inputs as the current phrase has left moves the
session to the next phrase with the cursor reset. -/
theorem runInputs_completes (ls : List Char) :
    ∀ (s : PracticeState), s.sessionComplete = false →
    s.currentCharIndex + ls.length = (getCurrentTarget s).length →
    ls ≠ [] →
    (runInputs s ls).currentPhraseIndex = s.currentPhraseIndex + 1 ∧
    (runInputs s ls).currentCharIndex = 0 := by
  induction ls with
  | nil =>
    intro s _ _ hne
    exact absurd rfl hne
  | cons a rest ih =>
    intro s hsc hlen _
    have hrun : runInputs s (a :: rest) = runInputs (handleInput s a) rest :=
      rfl
    by_cases hrest : rest = []
    · subst hrest
      have hlast : s.currentCharIndex + 1 = (getCurrentTarget s).length := by
        simp only [List.length_cons, List.length_nil] at hlen
        omega
      rw [hrun]
      exact handleInput_last s a hsc hlast
    · have hmid : s.currentCharIndex + 1 < (getCurrentTarget s).length := by
        simp only [List.length_cons] at hlen
        have : 0 < rest.length := List.length_pos.mpr hrest
        omega
      obtain ⟨hph, hpi, hci, hco⟩ := handleInput_mid s a hsc hmid
      have htarget : getCurrentTarget (handleInput s a) = getCurrentTarget s := by
        unfold getCurrentTarget
        rw [hph, hpi]
      have hlen2 : (handleInput s a).currentCharIndex + rest.length =
          (getCurrentTarget (handleInput s a)).length := by
        rw [hci, htarget]
        simp only [List.length_cons] at hlen
        omega
      rw [hrun]
      rcases ih (handleInput s a) hco hlen2 hrest with ⟨h1, h2⟩
      rw [h1, h2, hpi]
      exact ⟨rfl, rfl⟩

/-- C10: while the session is incomplete and the current normalized phrase
is unfinished, every accepted input advances the cursor through the target
by exactly one — on a non-final character the cursor moves one step with
phrase, phrases and session status unchanged; on the final character the
phrase index advances and the cursor resets — an incorrect input
additionally increments `totalErrors` by exactly one, and a phrase whose
normalized target has `n` characters is completed after exactly `n`
accepted inputs. -/
theorem handleInput_advances_spec (s : PracticeState) (letter : Char)
    (hsc : s.sessionComplete = false)
    (hidx : s.currentCharIndex < (getCurrentTarget s).length) :
    (letter = (getCurrentTarget s).get ⟨s.currentCharIndex, hidx⟩ →
      (handleInput s letter).totalErrors = s.totalErrors) ∧
    (letter ≠ (getCurrentTarget s).get ⟨s.currentCharIndex, hidx⟩ →
      (handleInput s letter).totalErrors = s.totalErrors + 1) ∧
    (s.currentCharIndex + 1 < (getCurrentTarget s).length →
      (handleInput s letter).currentCharIndex = s.currentCharIndex + 1 ∧
      (handleInput s letter).currentPhraseIndex = s.currentPhraseIndex ∧
      (handleInput s letter).sessionComplete = false) ∧
    (s.currentCharIndex + 1 = (getCurrentTarget s).length →
      (handleInput s letter).currentPhraseIndex = s.currentPhraseIndex + 1 ∧
      (handleInput s letter).currentCharIndex = 0) ∧
    (∀ ls : List Char, s.currentCharIndex = 0 →
      ls.length = (getCurrentTarget s).length →
      (runInputs s ls).currentPhraseIndex = s.currentPhraseIndex + 1 ∧
      (runInputs s ls).currentCharIndex = 0) := by
  refine ⟨?_, ?_, ?_, ?_, ?_⟩
  · intro ha
    rw [handleInput_errors s letter hsc hidx, if_pos ha]
  · intro ha
    rw [handleInput_errors s letter hsc hidx, if_neg ha]
  · intro hmid
    obtain ⟨_, hpi, hci, hco⟩ := handleInput_mid s letter hsc hmid
    exact ⟨hci, hpi, hco⟩
  · intro hlast
    exact handleInput_last s letter hsc hlast
  · intro ls hzero hlen
    apply runInputs_completes ls s hsc
    · rw [hzero]
      omega
    · intro he
      rw [he] at hlen
      simp only [List.length_nil] at hlen
      omega

/-- A fresh practice session over the phrases `"ab"` and `"c d"`. -/
def practiceProbe : PracticeState :=
  ⟨[['a', 'b'], ['c', ' ', 'd']], 0, 0, 0, false⟩

/-- Witness for C10 at a concrete session: a correct first input leaves the
error count alone, and two accepted inputs complete the two-character
phrase. -/
theorem handleInput_advances_spec_witness :
    (handleInput practiceProbe 'a').totalErrors = practiceProbe.totalErrors ∧
    (runInputs practiceProbe ['a', 'x']).currentPhraseIndex =
      practiceProbe.currentPhraseIndex + 1 :=
  ⟨(handleInput_advances_spec practiceProbe 'a' rfl (by decide)).1 (by decide),
    ((handleInput_advances_spec practiceProbe 'a' rfl (by decide)).2.2.2.2
      ['a', 'x'] rfl (by decide)).1⟩

end MorseLearn
